import Mathlib

/-!
Verification of the resource-registry and loader-support routines of
src/src/os/loadersys.c (SOTC repository).

The two registries are global arrays of 256 signed 32-bit slots:

  s32 thread_list[256];
  s32 sema_list[256];

A registry state is modelled as the list of its slot values (`List Int`),
index i of the list being slot i of the array.  Every function below is a
direct shallow embedding of the corresponding C function: a stateful C
function becomes a Lean function from the registry state to the pair of
the updated registry state and the C return value.
-/

namespace Loadersys

/-- Capacity of `thread_list` (C macro THREAD_LIST_LEN, loadersys.c:82). -/
def THREAD_LIST_LEN : Nat := 256

/-- Capacity of `sema_list` (C macro SEMA_LIST_LEN, loadersys.c:101). -/
def SEMA_LIST_LEN : Nat := 256

/-- Shallow embedding of `LoaderSysDeleteExternalThreadList`
(loadersys.c:86-99).  The C code scans `thread_list` from index 0 upward;
at the first slot equal to `threadId` it writes -1 into that slot and
returns `threadId`; if no slot matches it returns -1.  The registry is
passed and returned explicitly. -/
def LoaderSysDeleteExternalThreadList : List Int → Int → List Int × Int
  | [], _ => ([], -1)
  | v :: rest, threadId =>
    if v = threadId then
      ((-1 : Int) :: rest, threadId)
    else
      let r := LoaderSysDeleteExternalThreadList rest threadId
      (v :: r.1, r.2)

/-- Shallow embedding of `LoaderSysDeleteExternalSemaList`
(loadersys.c:105-118); its body is identical to the thread version but it
operates on `sema_list`. -/
def LoaderSysDeleteExternalSemaList : List Int → Int → List Int × Int
  | [], _ => ([], -1)
  | v :: rest, param_1 =>
    if v = param_1 then
      ((-1 : Int) :: rest, param_1)
    else
      let r := LoaderSysDeleteExternalSemaList rest param_1
      (v :: r.1, r.2)

/-- Shallow embedding of the loop body of
`LoaderSysChangeExternalThreadPriorityExceptMe` (loadersys.c:136-142).
Iterating from slot 0 upward, every slot whose value differs from
`thread_id` and is greater than -1 produces a `ChangeThreadPriority`
call, recorded as the pair (handle, priority) in program order; the
registry is read, never written, so it is threaded back slot by slot. -/
def changeThreadPriorityLoop (thread_id priority : Int) : List Int → List (Int × Int) × List Int
  | [] => ([], [])
  | v :: rest =>
    let r := changeThreadPriorityLoop thread_id priority rest
    if v ≠ thread_id ∧ -1 < v then
      ((v, priority) :: r.1, v :: r.2)
    else
      (r.1, v :: r.2)

/-- The loader OS state visible to
`LoaderSysChangeExternalThreadPriorityExceptMe`: the `thread_list`
registry and the identifier the OS reports for the currently running
thread. -/
structure LoaderOsState where
  thread_list : List Int
  currentThreadId : Int

/-- Embedding of the `GetThreadId()` OS primitive: it reports the
identifier of the thread that is running at the moment of the call. -/
def GetThreadId (st : LoaderOsState) : Int := st.currentThreadId

/-- Shallow embedding of `LoaderSysChangeExternalThreadPriorityExceptMe`
(loadersys.c:130-144).  The C code first calls `GetThreadId()` and then
runs the loop embedded as `changeThreadPriorityLoop`; the result is the
list of `ChangeThreadPriority(handle, priority)` calls issued, in order,
together with the (unmodified) registry. -/
def LoaderSysChangeExternalThreadPriorityExceptMe (st : LoaderOsState) (priority : Int) :
    List (Int × Int) × List Int :=
  let thread_id := GetThreadId st
  changeThreadPriorityLoop thread_id priority st.thread_list

/-- Embedding of the C library function `strncmp(s1, s2, n)` as used by
`checkHookDesc`.  A C string is modelled as the list of its characters up
to (not including) the NUL terminator, so running off the end of a list
corresponds to reaching the NUL byte, which compares as value 0 against
the other string and stops the scan.  The result is the difference of the
first pair of distinct byte values, or 0 when the first `n` bytes agree. -/
def strncmp : List Char → List Char → Nat → Int
  | _, _, 0 => 0
  | [], [], _ + 1 => 0
  | [], c :: _, _ + 1 => 0 - (c.toNat : Int)
  | c :: _, [], _ + 1 => (c.toNat : Int) - 0
  | a :: s1, b :: s2, n + 1 =>
    if a = b then strncmp s1 s2 n else (a.toNat : Int) - (b.toNat : Int)

/-- The characters of the string literal "host0:" that `checkHookDesc`
compares against (loadersys.c:201). -/
def host0chars : List Char := ['h', 'o', 's', 't', '0', ':']

/-- Shallow embedding of `checkHookDesc` (loadersys.c:196-208).  The C
function receives a pointer; it is modelled as the pair of the pointer
value `hook_desc_addr` and the pointed-to string `hook_desc`.  It returns
`hook_desc + 6` when `strncmp(hook_desc, "host0:", 6) == 0` and 0
otherwise, and has no side effects (it is a pure function of its
arguments). -/
def checkHookDesc (hook_desc_addr : Int) (hook_desc : List Char) : Int :=
  let lVar1 := strncmp hook_desc host0chars 6
  let iVar2 := hook_desc_addr + 6
  if lVar1 = 0 then iVar2 else 0

/-- State consumed by the recovery controller: the four resource
registries (slot tables of OS handles with -1 sentinels), the identifier
of the calling thread, and the captured recovery context (modelled by the
program counter it resumes at). -/
structure RecoveryState where
  intc_list : List Int
  thread_list : List Int
  sema_list : List Int
  iop_memory_list : List Int
  currentThreadId : Int
  recoverPoint : Int

/-- One observable OS action taken during recovery teardown. -/
inductive RecoveryEvent
  | deleteIntcHandler (h : Int)
  | terminateThread (h : Int)
  | deleteSema (h : Int)
  | releaseIopMemory (h : Int)
  | restoreContext (pc : Int)
deriving DecidableEq

/-- Where control is after an operation finishes: either back in the
caller, or transferred to a given program point. -/
inductive ControlOutcome
  | returnToCaller
  | jumpTo (pc : Int)
deriving DecidableEq

/-- Teardown phase number of a recovery event, in the order the spec
requires the phases to run. -/
def recoveryPhase : RecoveryEvent → Nat
  | .deleteIntcHandler _ => 0
  | .terminateThread _ => 1
  | .deleteSema _ => 2
  | .releaseIopMemory _ => 3
  | .restoreContext _ => 4

/-- Modelled from the spec: the bodies of
`LoaderSysDeleteAllExternalIntcHandler`, `LoaderSysDeleteAllExternalSema`,
`LoaderSysDeleteAllExternalThreadExceptMe`,
`LoaderSysDeleteAllExternalIopMemory`,
`LoaderSysExecuteRecoveryFirstProcess` and `LoaderSysJumpRecoverPoint`
are INCLUDE_ASM stubs in src/src/os/loadersys.c (only their declarations
appear), so the `recoverAndJump` teardown is modelled from spec section
4.5: it (1) deletes every registered interrupt handler, (2) terminates
every registered thread except the caller, (3) deletes every registered
semaphore, (4) releases every reserved memory block, and (5) restores the
captured context, transferring control there rather than returning.
Tracked handles are the nonnegative slot values; -1 slots are empty. -/
def recoverAndJump (st : RecoveryState) : List RecoveryEvent × ControlOutcome :=
  ((st.intc_list.filter (fun v => decide (0 ≤ v))).map RecoveryEvent.deleteIntcHandler
    ++ (st.thread_list.filter
        (fun v => decide (0 ≤ v) && decide (v ≠ st.currentThreadId))).map
          RecoveryEvent.terminateThread
    ++ (st.sema_list.filter (fun v => decide (0 ≤ v))).map RecoveryEvent.deleteSema
    ++ (st.iop_memory_list.filter (fun v => decide (0 ≤ v))).map
          RecoveryEvent.releaseIopMemory
    ++ [RecoveryEvent.restoreContext st.recoverPoint],
   ControlOutcome.jumpTo st.recoverPoint)

/-- The registry invariant: every (nonnegative) handle occupies at most
one slot.  Sentinel slots (-1) may repeat freely. -/
def RegistryInv (l : List Int) : Prop := ∀ x ∈ l, 0 ≤ x → l.count x ≤ 1

instance (l : List Int) : Decidable (RegistryInv l) := by
  unfold RegistryInv
  infer_instance

/-- Phase 1 of the modelled teardown: one `deleteIntcHandler` event per
tracked interrupt-handler slot, in slot order. -/
def intcTeardownEvents (st : RecoveryState) : List RecoveryEvent :=
  (st.intc_list.filter (fun v => decide (0 ≤ v))).map RecoveryEvent.deleteIntcHandler

/-- Phase 2 of the modelled teardown: one `terminateThread` event per
tracked thread slot other than the caller, in slot order. -/
def threadTeardownEvents (st : RecoveryState) : List RecoveryEvent :=
  (st.thread_list.filter
    (fun v => decide (0 ≤ v) && decide (v ≠ st.currentThreadId))).map
      RecoveryEvent.terminateThread

/-- Phase 3 of the modelled teardown: one `deleteSema` event per tracked
semaphore slot, in slot order. -/
def semaTeardownEvents (st : RecoveryState) : List RecoveryEvent :=
  (st.sema_list.filter (fun v => decide (0 ≤ v))).map RecoveryEvent.deleteSema

/-- Phase 4 of the modelled teardown: one `releaseIopMemory` event per
tracked reserved-memory slot, in slot order. -/
def iopTeardownEvents (st : RecoveryState) : List RecoveryEvent :=
  (st.iop_memory_list.filter (fun v => decide (0 ≤ v))).map
    RecoveryEvent.releaseIopMemory

/-- The two delete routines are literally the same scan. -/
theorem sema_eq_thread (l : List Int) (h : Int) :
    LoaderSysDeleteExternalSemaList l h = LoaderSysDeleteExternalThreadList l h := by
  induction l with
  | nil => rfl
  | cons v rest ih =>
    simp only [LoaderSysDeleteExternalSemaList, LoaderSysDeleteExternalThreadList, ih]

/-- Deleting a handle that is in no slot returns -1 and leaves every slot
unchanged. -/
theorem delete_of_not_mem (l : List Int) (h : Int) (hm : h ∉ l) :
    LoaderSysDeleteExternalThreadList l h = (l, -1) := by
  induction l with
  | nil => rfl
  | cons v rest ih =>
    have hv : v ≠ h := fun he => hm (he ▸ List.mem_cons_self v rest)
    have hr : h ∉ rest := fun he => hm (List.mem_cons_of_mem v he)
    simp only [LoaderSysDeleteExternalThreadList, if_neg hv, ih hr]

/-- Deleting a handle that is present clears exactly the first matching
slot (index `j`): slot `j` held the handle, no earlier slot did, the new
state is the old one with slot `j` set to -1, and the handle is returned. -/
theorem delete_of_mem (l : List Int) (h : Int) (hm : h ∈ l) :
    ∃ j, j < l.length ∧ l[j]? = some h ∧ (∀ i, i < j → l[i]? ≠ some h) ∧
      LoaderSysDeleteExternalThreadList l h = (l.set j (-1), h) := by
  induction l with
  | nil => cases hm
  | cons v rest ih =>
    by_cases hv : v = h
    · refine ⟨0, by simp, by simp [hv], fun i hi => absurd hi (Nat.not_lt_zero i), ?_⟩
      simp [LoaderSysDeleteExternalThreadList, hv]
    · have hr : h ∈ rest := by
        rcases List.mem_cons.mp hm with he | he
        · exact absurd he.symm hv
        · exact he
      obtain ⟨j, hj, hget, hbefore, heq⟩ := ih hr
      refine ⟨j + 1, by simpa using hj, by simpa using hget, ?_, ?_⟩
      · intro i hi
        cases i with
        | zero => simpa using hv
        | succ i => simpa using hbefore i (Nat.lt_of_succ_lt_succ hi)
      · simp only [LoaderSysDeleteExternalThreadList, if_neg hv, heq, List.set]

/-- Replacing any slot by the sentinel -1 cannot increase the number of
occurrences of a value other than -1. -/
theorem count_set_sentinel_le (l : List Int) (j : Nat) (x : Int) (hx : x ≠ -1) :
    (l.set j (-1)).count x ≤ l.count x := by
  induction l generalizing j with
  | nil => simp
  | cons v rest ih =>
    cases j with
    | zero =>
      simp only [List.set, List.count_cons]
      have hne : ¬ ((-1 : Int) == x) = true := by
        simp only [beq_iff_eq]
        exact fun he => hx he.symm
      rw [if_neg hne]
      split <;> omega
    | succ j =>
      simp only [List.set, List.count_cons]
      have := ih j
      omega

/-- Writing the sentinel over a slot that holds `h` (with `h` itself not
the sentinel) removes exactly one occurrence of `h`. -/
theorem count_set_sentinel_of_get (l : List Int) (j : Nat) (h : Int)
    (hj : l[j]? = some h) (hne : h ≠ -1) :
    (l.set j (-1)).count h + 1 = l.count h := by
  induction l generalizing j with
  | nil => simp at hj
  | cons v rest ih =>
    cases j with
    | zero =>
      simp only [List.getElem?_cons_zero, Option.some.injEq] at hj
      subst hj
      have hs : ¬ ((-1 : Int) == v) = true := by
        simp only [beq_iff_eq]
        exact fun he => hne he.symm
      simp only [List.set, List.count_cons]
      rw [if_neg hs, if_pos (beq_self_eq_true v)]
    | succ j =>
      simp only [List.getElem?_cons_succ] at hj
      simp only [List.set, List.count_cons]
      have := ih j hj
      omega

/-- The calls issued by the loop are exactly one per slot whose value is
nonnegative and differs from `thread_id`, in slot order. -/
theorem changeLoop_calls (thread_id priority : Int) (l : List Int) :
    (changeThreadPriorityLoop thread_id priority l).1 =
      (l.filter (fun v => decide (v ≠ thread_id) && decide (-1 < v))).map
        (fun v => (v, priority)) := by
  induction l with
  | nil => rfl
  | cons v rest ih =>
    by_cases hc : v ≠ thread_id ∧ -1 < v
    · have hb : (decide (v ≠ thread_id) && decide (-1 < v)) = true := by
        simp [hc.1, hc.2]
      simp only [changeThreadPriorityLoop, if_pos hc, List.filter_cons, hb, if_true,
        List.map_cons, ih]
    · have hb : (decide (v ≠ thread_id) && decide (-1 < v)) = true → False := by
        intro hb
        simp only [Bool.and_eq_true, decide_eq_true_eq] at hb
        exact hc hb
      simp only [changeThreadPriorityLoop, if_neg hc, List.filter_cons]
      rw [if_neg hb]
      exact ih

/-- The loop writes nothing: the registry it hands back is the one it was
given. -/
theorem changeLoop_registry (thread_id priority : Int) (l : List Int) :
    (changeThreadPriorityLoop thread_id priority l).2 = l := by
  induction l with
  | nil => rfl
  | cons v rest ih =>
    by_cases hc : v ≠ thread_id ∧ -1 < v
    · simp only [changeThreadPriorityLoop, if_pos hc, ih]
    · simp only [changeThreadPriorityLoop, if_neg hc, ih]

/-- Distinct characters have distinct byte values. -/
theorem char_toNat_ne {a b : Char} (h : a ≠ b) : a.toNat ≠ b.toNat :=
  fun he => h (Char.ext (UInt32.toNat.inj he))

/-- On a right-hand string with no NUL byte among its first `n`
characters, `strncmp` returns 0 exactly when the first `n` characters of
both strings agree. -/
theorem strncmp_eq_zero_iff (n : Nat) (s1 s2 : List Char) (hn : n ≤ s2.length)
    (hz : ∀ c ∈ s2, c.toNat ≠ 0) :
    strncmp s1 s2 n = 0 ↔ s1.take n = s2.take n := by
  induction n generalizing s1 s2 with
  | zero => simp [strncmp]
  | succ n ih =>
    cases s2 with
    | nil => simp at hn
    | cons b s2 =>
      have hb : b.toNat ≠ 0 := hz b (List.mem_cons_self b s2)
      cases s1 with
      | nil =>
        simp only [strncmp, List.take_nil, List.take_succ_cons]
        constructor
        · intro h
          exact absurd (by omega : (b.toNat : Int) = 0)
            (by exact_mod_cast fun he => hb (by exact_mod_cast he))
        · intro h
          cases h
      | cons a s1 =>
        simp only [strncmp, List.take_succ_cons, List.cons.injEq]
        by_cases hab : a = b
        · rw [if_pos hab]
          have := ih s1 s2 (Nat.le_of_succ_le_succ hn)
            (fun c hc => hz c (List.mem_cons_of_mem b hc))
          simpa [hab] using this
        · rw [if_neg hab]
          constructor
          · intro h
            have : a.toNat = b.toNat := by omega
            exact absurd (Char.ext (UInt32.toNat.inj this)) hab
          · intro h
            exact absurd h.1 hab

/-- C1: in any registry whose slots hold the values 5, 9, 5 (the 9 in a
single slot `j`) with -1 sentinels elsewhere, `LoaderSysDeleteExternalThreadList 9`
clears exactly slot `j` (setting it to -1) and returns 9; and for any
registry not containing a given nonnegative handle `h`, deleting `h`
returns the not-found signal -1, which is distinct from `h`. -/
theorem claim_C1 :
    (∀ (l : List Int) (j : Nat), l[j]? = some 9 →
       (∀ i, i < l.length → i ≠ j → l[i]? = some 5 ∨ l[i]? = some (-1)) →
       LoaderSysDeleteExternalThreadList l 9 = (l.set j (-1), 9)) ∧
    (∀ (l : List Int) (h : Int), 0 ≤ h → h ∉ l →
       LoaderSysDeleteExternalThreadList l h = (l, -1) ∧ (-1 : Int) ≠ h) := by
  constructor
  · intro l j hget hrest
    obtain ⟨j', hj', hget', _, heq⟩ :=
      delete_of_mem l 9 (List.getElem?_mem hget)
    have hjj : j' = j := by
      by_contra hne
      rcases hrest j' hj' hne with h5 | hs
      · rw [hget'] at h5
        exact absurd (Option.some.inj h5) (by norm_num)
      · rw [hget'] at hs
        exact absurd (Option.some.inj hs) (by norm_num)
    rw [hjj] at heq
    exact heq
  · intro l h hpos hm
    exact ⟨delete_of_not_mem l h hm, fun he => by omega⟩

/-- Witness for C1 at the registry [5, 9, 5, -1] (deleting 9 clears slot
1 only) and at [5, 9, 5] with the absent handle 7. -/
theorem claim_C1_witness :
    LoaderSysDeleteExternalThreadList [5, 9, 5, -1] 9 = ([5, -1, 5, -1], 9) ∧
    LoaderSysDeleteExternalThreadList [5, 9, 5] 7 = ([5, 9, 5], -1) := by
  constructor
  · have h := claim_C1.1 [5, 9, 5, -1] 1 (by decide) (by decide)
    simpa using h
  · exact (claim_C1.2 [5, 9, 5] 7 (by decide) (by decide)).1

/-- C3: deleting a handle absent from every slot returns the NotFound
signal -1 and leaves every slot unchanged, for both
`LoaderSysDeleteExternalThreadList` and `LoaderSysDeleteExternalSemaList`;
hence a repeated delete of an absent handle is a no-op on the registry. -/
theorem claim_C3 (l : List Int) (h : Int) (hm : h ∉ l) :
    LoaderSysDeleteExternalThreadList l h = (l, -1) ∧
    LoaderSysDeleteExternalSemaList l h = (l, -1) :=
  ⟨delete_of_not_mem l h hm, (sema_eq_thread l h).trans (delete_of_not_mem l h hm)⟩

/-- Witness for C3 at the registry [5, 9, -1] and the absent handle 7. -/
theorem claim_C3_witness :
    LoaderSysDeleteExternalThreadList [5, 9, -1] 7 = ([5, 9, -1], -1) ∧
    LoaderSysDeleteExternalSemaList [5, 9, -1] 7 = ([5, 9, -1], -1) :=
  claim_C3 [5, 9, -1] 7 (by decide)

/-- C4: deleting a present handle sets the matched slot (index `j`) to
the sentinel -1 and leaves every other slot exactly as it was: the length
is unchanged and every index other than `j` reads the same value, for
both delete routines. -/
theorem claim_C4 (l : List Int) (h : Int) (hm : h ∈ l) :
    ∃ j, j < l.length ∧ l[j]? = some h ∧
      LoaderSysDeleteExternalThreadList l h = (l.set j (-1), h) ∧
      LoaderSysDeleteExternalSemaList l h = (l.set j (-1), h) ∧
      (l.set j (-1)).length = l.length ∧
      ∀ i, i ≠ j → (l.set j (-1))[i]? = l[i]? := by
  obtain ⟨j, hj, hget, _, heq⟩ := delete_of_mem l h hm
  exact ⟨j, hj, hget, heq, (sema_eq_thread l h).trans heq, by simp,
    fun i hi => List.getElem?_set_ne (Ne.symm hi)⟩

/-- Witness for C4 at the registry [4, 9, 4] and the handle 9 (slot 1 is
the match). -/
theorem claim_C4_witness :
    LoaderSysDeleteExternalThreadList [4, 9, 4] 9 = ([4, -1, 4], 9) := by
  obtain ⟨j, hj, hget, heq, _, _, _⟩ := claim_C4 [4, 9, 4] 9 (by decide)
  have hj3 : j < 3 := by simpa using hj
  interval_cases j
  · exact absurd hget (by decide)
  · simpa using heq
  · exact absurd hget (by decide)

/-- A handle that occurs at most once anywhere occurs at most once in a
registry, whether or not it is a member. -/
theorem count_le_one_of_inv (l : List Int) (x : Int) (hinv : RegistryInv l)
    (hx : 0 ≤ x) : l.count x ≤ 1 := by
  by_cases hm : x ∈ l
  · exact hinv x hm hx
  · rw [List.count_eq_zero_of_not_mem hm]
    omega

/-- C5: under the invariant that a handle appears in at most one slot,
both delete routines preserve the invariant, and after deleting a
nonnegative handle that was present, the handle is absent from every
slot. -/
theorem claim_C5 (l : List Int) (h : Int) (hinv : RegistryInv l) :
    (RegistryInv (LoaderSysDeleteExternalThreadList l h).1 ∧
     RegistryInv (LoaderSysDeleteExternalSemaList l h).1) ∧
    (0 ≤ h → h ∈ l →
      h ∉ (LoaderSysDeleteExternalThreadList l h).1 ∧
      h ∉ (LoaderSysDeleteExternalSemaList l h).1) := by
  rw [sema_eq_thread]
  by_cases hm : h ∈ l
  · obtain ⟨j, _, hget, _, heq⟩ := delete_of_mem l h hm
    rw [heq]
    constructor
    · have hpres : RegistryInv (l.set j (-1)) := by
        intro x _ hx
        calc (l.set j (-1)).count x
            ≤ l.count x := count_set_sentinel_le l j x (by omega)
          _ ≤ 1 := count_le_one_of_inv l x hinv hx
      exact ⟨hpres, hpres⟩
    · intro hpos _
      have hne : h ≠ -1 := by omega
      have hcount := count_set_sentinel_of_get l j h hget hne
      have hle := count_le_one_of_inv l h hinv hpos
      have hzero : (l.set j (-1)).count h = 0 := by omega
      have habs := List.count_eq_zero.mp hzero
      exact ⟨habs, habs⟩
  · rw [delete_of_not_mem l h hm]
    exact ⟨⟨hinv, hinv⟩, fun _ hm2 => absurd hm2 hm⟩

/-- Witness for C5 at the registry [5, 9, -1, -1] (which satisfies the
invariant) and the handle 9. -/
theorem claim_C5_witness :
    RegistryInv [5, 9, -1, -1] ∧
    9 ∉ (LoaderSysDeleteExternalThreadList [5, 9, -1, -1] 9).1 ∧
    RegistryInv (LoaderSysDeleteExternalThreadList [5, 9, -1, -1] 9).1 := by
  have hinv : RegistryInv [5, 9, -1, -1] := by decide
  have h := claim_C5 [5, 9, -1, -1] 9 hinv
  exact ⟨hinv, (h.2 (by decide) (by decide)).1, h.1.1⟩

/-- C6: each registry is a fixed table of exactly 256 slots
(THREAD_LIST_LEN and SEMA_LIST_LEN are both 256), and deletion is a
linear scan by value from index 0 upward: for a present handle there is a
slot index `j` holding it such that no smaller index holds it, and both
delete routines clear exactly that lowest-indexed slot (setting it to -1)
and return the handle. -/
theorem claim_C6 :
    THREAD_LIST_LEN = 256 ∧ SEMA_LIST_LEN = 256 ∧
    ∀ (l : List Int) (h : Int), h ∈ l →
      ∃ j, j < l.length ∧ l[j]? = some h ∧ (∀ i, i < j → l[i]? ≠ some h) ∧
        LoaderSysDeleteExternalThreadList l h = (l.set j (-1), h) ∧
        LoaderSysDeleteExternalSemaList l h = (l.set j (-1), h) := by
  refine ⟨rfl, rfl, fun l h hm => ?_⟩
  obtain ⟨j, hj, hget, hbef, heq⟩ := delete_of_mem l h hm
  exact ⟨j, hj, hget, hbef, heq, (sema_eq_thread l h).trans heq⟩

/-- Witness for C6 at the registry [7, 9, 9], where the handle 9 occurs
twice: the lowest-indexed match (slot 1) is cleared and slot 2 keeps its
value. -/
theorem claim_C6_witness :
    LoaderSysDeleteExternalThreadList [7, 9, 9] 9 = ([7, -1, 9], 9) := by
  obtain ⟨j, hj, hget, hbef, heq, _⟩ := claim_C6.2.2 [7, 9, 9] 9 (by decide)
  have hj3 : j < 3 := by simpa using hj
  interval_cases j
  · exact absurd hget (by decide)
  · simpa using heq
  · exact absurd (hbef 1 (by omega)) (by decide)

/-- C8: deleting the sentinel value -1 itself always returns -1 (the same
value as the not-found signal) and leaves every slot of the registry
unchanged, whether or not any slot currently holds -1, for both delete
routines. -/
theorem claim_C8 (l : List Int) :
    LoaderSysDeleteExternalThreadList l (-1) = (l, -1) ∧
    LoaderSysDeleteExternalSemaList l (-1) = (l, -1) := by
  have hthread : LoaderSysDeleteExternalThreadList l (-1) = (l, -1) := by
    induction l with
    | nil => rfl
    | cons v rest ih =>
      by_cases hv : v = -1
      · subst hv
        simp [LoaderSysDeleteExternalThreadList]
      · simp only [LoaderSysDeleteExternalThreadList, if_neg hv, ih]
  exact ⟨hthread, (sema_eq_thread l (-1)).trans hthread⟩

/-- C2: under the data-model invariant that every slot holds either an OS
handle (nonnegative) or the sentinel -1,
`LoaderSysChangeExternalThreadPriorityExceptMe priority` issues
`ChangeThreadPriority (handle, priority)` exactly once for every slot
whose value is a tracked (non-sentinel) handle different from the
identifier `GetThreadId` reports for the calling thread at call time, in
slot order, and it never issues a call for the calling thread itself. -/
theorem claim_C2 (st : LoaderOsState) (priority : Int)
    (hwf : ∀ v ∈ st.thread_list, 0 ≤ v ∨ v = -1) :
    (LoaderSysChangeExternalThreadPriorityExceptMe st priority).1 =
      (st.thread_list.filter
        (fun v => decide (v ≠ -1) && decide (v ≠ GetThreadId st))).map
          (fun v => (v, priority)) ∧
    ∀ p ∈ (LoaderSysChangeExternalThreadPriorityExceptMe st priority).1,
      p.1 ≠ GetThreadId st := by
  constructor
  · unfold LoaderSysChangeExternalThreadPriorityExceptMe
    rw [changeLoop_calls]
    have hfe : st.thread_list.filter
          (fun v => decide (v ≠ GetThreadId st) && decide (-1 < v)) =
        st.thread_list.filter
          (fun v => decide (v ≠ -1) && decide (v ≠ GetThreadId st)) := by
      apply List.filter_congr
      intro v hv
      rcases hwf v hv with hge | hs
      · have h1 : (-1 : Int) < v := by omega
        have h2 : v ≠ -1 := by omega
        by_cases hvt : v = GetThreadId st
        · simp [hvt]
        · simp [hvt, h1, h2]
      · subst hs
        simp
    rw [hfe]
  · intro p hp
    unfold LoaderSysChangeExternalThreadPriorityExceptMe at hp
    rw [changeLoop_calls] at hp
    obtain ⟨v, hv, hpv⟩ := List.mem_map.mp hp
    have hfil := (List.mem_filter.mp hv).2
    simp only [Bool.and_eq_true, decide_eq_true_eq] at hfil
    rw [← hpv]
    exact hfil.1

/-- Witness for C2 at the state with registry [3, -1, 7] and current
thread id 7: exactly one call is issued, for handle 3. -/
theorem claim_C2_witness :
    (LoaderSysChangeExternalThreadPriorityExceptMe ⟨[3, -1, 7], 7⟩ 10).1 = [(3, 10)] ∧
    ∀ p ∈ (LoaderSysChangeExternalThreadPriorityExceptMe ⟨[3, -1, 7], 7⟩ 10).1,
      p.1 ≠ 7 := by
  have h := claim_C2 ⟨[3, -1, 7], 7⟩ 10 (by decide)
  constructor
  · rw [h.1]
    rfl
  · exact h.2

/-- C9: `LoaderSysChangeExternalThreadPriorityExceptMe` never issues a
`ChangeThreadPriority` call for a negative slot value (it skips every
negative value, not only the -1 sentinel), and it never modifies any slot
of the thread registry: the registry handed back equals the input. -/
theorem claim_C9 (st : LoaderOsState) (priority : Int) :
    (∀ p ∈ (LoaderSysChangeExternalThreadPriorityExceptMe st priority).1,
       0 ≤ p.1) ∧
    (LoaderSysChangeExternalThreadPriorityExceptMe st priority).2 =
      st.thread_list := by
  constructor
  · intro p hp
    unfold LoaderSysChangeExternalThreadPriorityExceptMe at hp
    rw [changeLoop_calls] at hp
    obtain ⟨v, hv, hpv⟩ := List.mem_map.mp hp
    have hfil := (List.mem_filter.mp hv).2
    simp only [Bool.and_eq_true, decide_eq_true_eq] at hfil
    rw [← hpv]
    omega
  · exact changeLoop_registry (GetThreadId st) priority st.thread_list

/-- Witness for C9 at the state with registry [-5, 3, -1, -7] and current
thread id 3: no call carries a negative handle and the registry is
returned unchanged. -/
theorem claim_C9_witness :
    (∀ p ∈ (LoaderSysChangeExternalThreadPriorityExceptMe ⟨[-5, 3, -1, -7], 3⟩ 20).1,
       0 ≤ p.1) ∧
    (LoaderSysChangeExternalThreadPriorityExceptMe ⟨[-5, 3, -1, -7], 3⟩ 20).2 =
      [-5, 3, -1, -7] :=
  claim_C9 ⟨[-5, 3, -1, -7], 3⟩ 20

/-- C10: `checkHookDesc` compares the first 6 characters of the argument
string with "host0:"; `strncmp` reports 0 exactly when they agree, in
which case the function returns the pointer 6 bytes past the start of the
string, and otherwise it returns 0.  The function is pure: it is a
function of the pointer and string only and touches no other state. -/
theorem claim_C10 (hook_desc_addr : Int) (hook_desc : List Char) :
    (strncmp hook_desc host0chars 6 = 0 ↔ hook_desc.take 6 = host0chars) ∧
    checkHookDesc hook_desc_addr hook_desc =
      (if hook_desc.take 6 = host0chars then hook_desc_addr + 6 else 0) := by
  have hiff := strncmp_eq_zero_iff 6 hook_desc host0chars (by decide) (by decide)
  have htake : host0chars.take 6 = host0chars := by decide
  rw [htake] at hiff
  refine ⟨hiff, ?_⟩
  unfold checkHookDesc
  by_cases hp : hook_desc.take 6 = host0chars
  · rw [if_pos (hiff.mpr hp), if_pos hp]
  · rw [if_neg fun h0 => hp (hiff.mp h0), if_neg hp]

/-- Witness for C10: a string starting with "host0:" yields the address
6 past the base (1000 + 6), and a string that does not match yields 0. -/
theorem claim_C10_witness :
    checkHookDesc 1000 ['h', 'o', 's', 't', '0', ':', 'a'] = 1006 ∧
    checkHookDesc 1000 ['c', 'd', 'r', 'o', 'm', '0'] = 0 := by
  constructor
  · rw [(claim_C10 1000 ['h', 'o', 's', 't', '0', ':', 'a']).2]
    decide
  · rw [(claim_C10 1000 ['c', 'd', 'r', 'o', 'm', '0']).2]
    decide

/-- A list all of whose elements are one value is pairwise
nondecreasing. -/
theorem pairwise_le_of_all_eq {l : List Nat} {c : Nat} (h : ∀ x ∈ l, x = c) :
    l.Pairwise (· ≤ ·) := by
  induction l with
  | nil => exact List.Pairwise.nil
  | cons a l ih =>
    refine List.Pairwise.cons (fun b hb => ?_)
      (ih fun x hx => h x (List.mem_cons_of_mem a hx))
    rw [h a (List.mem_cons_self a l), h b (List.mem_cons_of_mem a hb)]

/-- The phases taken by a mapped teardown block are all the phase of its
constructor. -/
theorem phases_all_eq {l : List RecoveryEvent} {c : Nat}
    (h : ∀ e ∈ l, recoveryPhase e = c) :
    ∀ x ∈ l.map recoveryPhase, x = c := by
  intro x hx
  obtain ⟨e, he, hxe⟩ := List.mem_map.mp hx
  exact hxe ▸ h e he

/-- C7: the modelled `recoverAndJump` teardown (spec-modelled; see
`recoverAndJump`) performs, strictly in this order, the deletion of every
registered interrupt handler, the termination of every registered thread
except the caller, the deletion of every registered semaphore and the
release of every reserved memory block, and only then restores the
captured context; the phase of successive events never decreases, the
context restore is the final event, and on success control goes to the
captured recovery point, never back to the caller. -/
theorem claim_C7 (st : RecoveryState) :
    (recoverAndJump st).1 =
      intcTeardownEvents st ++ threadTeardownEvents st ++ semaTeardownEvents st
        ++ iopTeardownEvents st ++ [RecoveryEvent.restoreContext st.recoverPoint] ∧
    (∀ h, 0 ≤ h → h ∈ st.intc_list →
      RecoveryEvent.deleteIntcHandler h ∈ intcTeardownEvents st) ∧
    (∀ h, 0 ≤ h → h ≠ st.currentThreadId → h ∈ st.thread_list →
      RecoveryEvent.terminateThread h ∈ threadTeardownEvents st) ∧
    (∀ e ∈ threadTeardownEvents st,
      e ≠ RecoveryEvent.terminateThread st.currentThreadId) ∧
    (∀ h, 0 ≤ h → h ∈ st.sema_list →
      RecoveryEvent.deleteSema h ∈ semaTeardownEvents st) ∧
    (∀ h, 0 ≤ h → h ∈ st.iop_memory_list →
      RecoveryEvent.releaseIopMemory h ∈ iopTeardownEvents st) ∧
    ((recoverAndJump st).1.map recoveryPhase).Pairwise (· ≤ ·) ∧
    (recoverAndJump st).1.getLast? =
      some (RecoveryEvent.restoreContext st.recoverPoint) ∧
    (recoverAndJump st).2 = ControlOutcome.jumpTo st.recoverPoint ∧
    (recoverAndJump st).2 ≠ ControlOutcome.returnToCaller := by
  have hp1 : ∀ e ∈ intcTeardownEvents st, recoveryPhase e = 0 := by
    intro e he
    obtain ⟨v, _, hv⟩ := List.mem_map.mp he
    rw [← hv]
    rfl
  have hp2 : ∀ e ∈ threadTeardownEvents st, recoveryPhase e = 1 := by
    intro e he
    obtain ⟨v, _, hv⟩ := List.mem_map.mp he
    rw [← hv]
    rfl
  have hp3 : ∀ e ∈ semaTeardownEvents st, recoveryPhase e = 2 := by
    intro e he
    obtain ⟨v, _, hv⟩ := List.mem_map.mp he
    rw [← hv]
    rfl
  have hp4 : ∀ e ∈ iopTeardownEvents st, recoveryPhase e = 3 := by
    intro e he
    obtain ⟨v, _, hv⟩ := List.mem_map.mp he
    rw [← hv]
    rfl
  have htrace : (recoverAndJump st).1 =
      intcTeardownEvents st ++ threadTeardownEvents st ++ semaTeardownEvents st
        ++ iopTeardownEvents st ++ [RecoveryEvent.restoreContext st.recoverPoint] := rfl
  refine ⟨htrace, ?_, ?_, ?_, ?_, ?_, ?_, ?_, rfl, ?_⟩
  · intro h h0 hm
    exact List.mem_map.mpr ⟨h, List.mem_filter.mpr ⟨hm, by simpa using h0⟩, rfl⟩
  · intro h h0 hne hm
    refine List.mem_map.mpr ⟨h, List.mem_filter.mpr ⟨hm, ?_⟩, rfl⟩
    simp [h0, hne]
  · intro e he hee
    obtain ⟨v, hv, hve⟩ := List.mem_map.mp he
    rw [← hve] at hee
    have hfil := (List.mem_filter.mp hv).2
    simp only [Bool.and_eq_true, decide_eq_true_eq] at hfil
    exact hfil.2 (RecoveryEvent.terminateThread.inj hee)
  · intro h h0 hm
    exact List.mem_map.mpr ⟨h, List.mem_filter.mpr ⟨hm, by simpa using h0⟩, rfl⟩
  · intro h h0 hm
    exact List.mem_map.mpr ⟨h, List.mem_filter.mpr ⟨hm, by simpa using h0⟩, rfl⟩
  · rw [htrace]
    simp only [List.map_append]
    have hm1 := phases_all_eq hp1
    have hm2 := phases_all_eq hp2
    have hm3 := phases_all_eq hp3
    have hm4 := phases_all_eq hp4
    have hb12 : ∀ x ∈ (intcTeardownEvents st).map recoveryPhase
        ++ (threadTeardownEvents st).map recoveryPhase, x ≤ 1 := by
      intro x hx
      rcases List.mem_append.mp hx with hx | hx
      · rw [hm1 x hx]
        omega
      · rw [hm2 x hx]
    have hb123 : ∀ x ∈ ((intcTeardownEvents st).map recoveryPhase
        ++ (threadTeardownEvents st).map recoveryPhase)
        ++ (semaTeardownEvents st).map recoveryPhase, x ≤ 2 := by
      intro x hx
      rcases List.mem_append.mp hx with hx | hx
      · have := hb12 x hx
        omega
      · rw [hm3 x hx]
    have hb1234 : ∀ x ∈ (((intcTeardownEvents st).map recoveryPhase
        ++ (threadTeardownEvents st).map recoveryPhase)
        ++ (semaTeardownEvents st).map recoveryPhase)
        ++ (iopTeardownEvents st).map recoveryPhase, x ≤ 3 := by
      intro x hx
      rcases List.mem_append.mp hx with hx | hx
      · have := hb123 x hx
        omega
      · rw [hm4 x hx]
    refine List.pairwise_append.mpr ⟨?_, by simp, ?_⟩
    · refine List.pairwise_append.mpr ⟨?_, pairwise_le_of_all_eq hm4, ?_⟩
      · refine List.pairwise_append.mpr ⟨?_, pairwise_le_of_all_eq hm3, ?_⟩
        · refine List.pairwise_append.mpr
            ⟨pairwise_le_of_all_eq hm1, pairwise_le_of_all_eq hm2, ?_⟩
          intro a ha b hb
          rw [hm1 a ha, hm2 b hb]
          omega
        · intro a ha b hb
          have := hb12 a ha
          rw [hm3 b hb]
          omega
      · intro a ha b hb
        have := hb123 a ha
        rw [hm4 b hb]
        omega
    · intro a ha b hb
      have hb4 := hb1234 a ha
      have : b = 4 := by simpa using hb
      omega
  · rw [htrace]
    rw [List.getLast?_append]
    rfl
  · intro he
    rw [show (recoverAndJump st).2 = ControlOutcome.jumpTo st.recoverPoint from rfl] at he
    cases he

/-- Witness for C7 at a small concrete recovery state: one handler, two
threads (one of them the caller, id 3), one semaphore and one memory
block; the trace runs the four phases in order and finishes by jumping to
the captured point 77. -/
theorem claim_C7_witness :
    (recoverAndJump ⟨[2], [3, 5], [4], [6], 3, 77⟩).1 =
      [RecoveryEvent.deleteIntcHandler 2, RecoveryEvent.terminateThread 5,
       RecoveryEvent.deleteSema 4, RecoveryEvent.releaseIopMemory 6,
       RecoveryEvent.restoreContext 77] ∧
    (recoverAndJump ⟨[2], [3, 5], [4], [6], 3, 77⟩).2 = ControlOutcome.jumpTo 77 := by
  have h := claim_C7 ⟨[2], [3, 5], [4], [6], 3, 77⟩
  refine ⟨?_, h.2.2.2.2.2.2.2.2.1⟩
  rw [h.1]
  rfl

end Loadersys
